import Mathlib

/-!
Verification of the CBC padding-oracle attack engine in
`src/attacks/aes/attack.py`, against its natural-language specification.

Bytes are modelled as `Nat` values (all operations used are XORs of values
below 256, so no modular reduction is needed), byte strings as `List Nat`,
the padding oracle as a pure boolean predicate on byte strings, and the
per-block worker threads as pure per-block computations whose results are
collected in an arbitrary completion order and then sorted by block index,
exactly as the source does.
-/

set_option maxRecDepth 100000

set_option maxHeartbeats 4000000

abbrev Bytes := List Nat

/-- Progress events delivered to the visualization callback.  The source
emits the tags `block_start`, `byte_start`, `testing`, `found` and
`complete`; the specification's taxonomy additionally names `Failed`,
`Exhausted` and `PaddingError` events, which are included as constructors
so that their absence from every emitted stream can be stated. -/
inductive ProgressEvent where
  | blockStart (blockIdx : Nat)
  | byteStart (blockIdx bytePos : Nat)
  | testing (blockIdx bytePos testByte : Nat)
  | found (blockIdx bytePos plaintextByte intermediateByte : Nat)
  | blockComplete (blockIdx : Nat)
  | exhausted (blockIdx bytePos : Nat)
  | paddingError
deriving DecidableEq, Repr

/-- Tags actually produced by the source's callback invocations. -/
def ProgressEvent.isEmittedKind : ProgressEvent → Bool
  | .blockStart _ => true
  | .byteStart _ _ => true
  | .testing _ _ _ => true
  | .found _ _ _ _ => true
  | .blockComplete _ => true
  | .exhausted _ _ => false
  | .paddingError => false

/-- PKCS#7 padding as implemented by `Crypto.Util.Padding.pad`:
append `bs - len % bs` bytes, each equal to that count. -/
def pkcs7pad (data : Bytes) (bs : Nat) : Bytes :=
  let plen := bs - data.length % bs
  data ++ List.replicate plen plen

/-- PKCS#7 unpadding as implemented by `Crypto.Util.Padding.unpad`:
fails (raises `ValueError`) on empty input, input whose length is not a
multiple of the block size, a declared pad length outside `[1, bs]`, or
trailing bytes not all equal to the declared pad length. -/
def pkcs7unpad (data : Bytes) (bs : Nat) : Option Bytes :=
  if data.length = 0 ∨ data.length % bs ≠ 0 then none
  else
    let plen := data.getLastD 0
    if plen < 1 ∨ bs < plen then none
    else if (data.drop (data.length - plen)).all (fun b => b = plen) then
      some (data.take (data.length - plen))
    else none

def chunksAux (bsm : Nat) : Nat → Bytes → List Bytes
  | _, [] => []
  | 0, _ :: _ => []
  | fuel + 1, x :: xs => ((x :: xs).take (bsm + 1)) :: chunksAux bsm fuel (xs.drop bsm)

/-- Split a byte string into consecutive chunks of `bs` bytes, as the
source's `[ciphertext[i:i+block_size] for i in range(0, len, block_size)]`.
The fuel argument (the list length) only serves structural recursion: each
step removes at least one element, so the fuel never runs out first. -/
def chunks (bs : Nat) (l : Bytes) : List Bytes :=
  if bs = 0 then [] else chunksAux (bs - 1) l.length l

/-- Lines 67-71 of `attack.py`: copy the previous block and, for every
already-solved position `i` with `byte_pos < i < block_size` (the source
loop is `range(byte_pos + 1, block_size)`), XOR in the recorded
intermediate byte and the padding value currently assumed. -/
def buildTestBlock (previous_block intermediate_bytes : Bytes)
    (byte_pos padding_byte block_size : Nat) : Bytes :=
  (List.range previous_block.length).map fun i =>
    if byte_pos + 1 ≤ i ∧ i < block_size then
      previous_block.getD i 0 ^^^ intermediate_bytes.getD i 0 ^^^ padding_byte
    else previous_block.getD i 0

/-- Lines 78-95: the first pass over all 256 values of `test_byte`,
collecting every value the oracle accepts.  Each iteration XORs the test
value into position `byte_pos` (whose prior content is
`previous_block[byte_pos]`) and queries the oracle on the crafted block
followed by the target block. -/
def firstPassCandidates (padding_oracle : Bytes → Bool)
    (test_block previous_block target_block : Bytes) (byte_pos : Nat) : List Nat :=
  (List.range 256).filter fun test_byte =>
    padding_oracle
      (test_block.set byte_pos (previous_block.getD byte_pos 0 ^^^ test_byte)
        ++ target_block)

/-- Lines 106-118: the padding-value-1 verification of one candidate.
When `byte_pos > 0` the byte at `byte_pos - 1` of the crafted block is
flipped with `0xFF` and the oracle re-queried; the candidate is kept
(`valid` stays true) exactly when the oracle rejects the corrupted block. -/
def verifyCandidate (padding_oracle : Bytes → Bool)
    (test_block previous_block target_block : Bytes) (byte_pos candidate : Nat) : Bool :=
  if 0 < byte_pos then
    let tb2 := test_block.set byte_pos (previous_block.getD byte_pos 0 ^^^ candidate)
    let verifier := tb2.set (byte_pos - 1) (tb2.getD (byte_pos - 1) 0 ^^^ 0xFF)
    !(padding_oracle (verifier ++ target_block))
  else true

/-- Lines 98-128: choose the accepted `test_byte` from the candidate list.
For padding value 1 the verified candidates are preferred, but when no
candidate survives verification the source falls back to
`candidate_values[0]`; for larger padding values `candidate_values[0]` is
taken directly. -/
def selectCandidate (padding_oracle : Bytes → Bool)
    (test_block previous_block target_block : Bytes)
    (byte_pos padding_byte : Nat) (candidate_values : List Nat) : Option Nat :=
  if candidate_values.isEmpty then none
  else if padding_byte = 1 then
    match candidate_values.filter
        (verifyCandidate padding_oracle test_block previous_block target_block byte_pos) with
    | v :: _ => some v
    | [] => candidate_values.head?
  else candidate_values.head?

/-- The per-block mutable state of `process_block`: the two zero-initialized
byte arrays, plus an oracle-call counter and the event stream, which the
model carries explicitly. -/
structure BlockState where
  intermediate_bytes : Bytes
  plaintext_bytes : Bytes
  calls : Nat
  events : List ProgressEvent
deriving Repr, DecidableEq

/-- One iteration of the `for padding_byte in range(1, block_size + 1)`
loop of `process_block` (lines 56-139). -/
def byteStep (padding_oracle : Bytes → Bool) (block_size : Nat)
    (previous_block target_block : Bytes) (block_idx : Nat)
    (st : BlockState) (padding_byte : Nat) : BlockState :=
  let byte_pos := block_size - padding_byte
  let test_block := buildTestBlock previous_block st.intermediate_bytes byte_pos
    padding_byte block_size
  let candidate_values :=
    firstPassCandidates padding_oracle test_block previous_block target_block byte_pos
  let testingEvents :=
    (List.range 256).map fun t => ProgressEvent.testing block_idx byte_pos t
  let verify_calls :=
    if padding_byte = 1 ∧ candidate_values ≠ [] ∧ 0 < byte_pos then
      candidate_values.length
    else 0
  match selectCandidate padding_oracle test_block previous_block target_block
      byte_pos padding_byte candidate_values with
  | some test_byte =>
    let intermediate_byte := test_byte ^^^ padding_byte
    let plaintext_byte := intermediate_byte ^^^ previous_block.getD byte_pos 0
    { intermediate_bytes := st.intermediate_bytes.set byte_pos intermediate_byte
      plaintext_bytes := st.plaintext_bytes.set byte_pos plaintext_byte
      calls := st.calls + 256 + verify_calls
      events := st.events ++ ProgressEvent.byteStart block_idx byte_pos :: testingEvents
        ++ [ProgressEvent.found block_idx byte_pos plaintext_byte intermediate_byte] }
  | none =>
    { st with
      calls := st.calls + 256 + verify_calls
      events := st.events ++ ProgressEvent.byteStart block_idx byte_pos :: testingEvents }

/-- Fold the byte steps for a given list of padding values. -/
def stepsFold (padding_oracle : Bytes → Bool) (block_size : Nat)
    (previous_block target_block : Bytes) (block_idx : Nat)
    (st : BlockState) (l : List Nat) : BlockState :=
  l.foldl (byteStep padding_oracle block_size previous_block target_block block_idx) st

/-- The padding values `1, 2, ..., bs` attempted by `process_block`. -/
def padsList (bs : Nat) : List Nat :=
  (List.range bs).map (· + 1)

def initBlockState (block_size block_idx : Nat) : BlockState :=
  { intermediate_bytes := List.replicate block_size 0
    plaintext_bytes := List.replicate block_size 0
    calls := 0
    events := [ProgressEvent.blockStart block_idx] }

/-- The state after the first `n` padding values have been processed. -/
def blockStateAfter (padding_oracle : Bytes → Bool) (block_size : Nat)
    (previous_block target_block : Bytes) (block_idx n : Nat) : BlockState :=
  stepsFold padding_oracle block_size previous_block target_block block_idx
    (initBlockState block_size block_idx) (padsList n)

/-- `process_block` (lines 42-145), the crash-free core: run all padding
values and emit the final `complete` event.  The oracle is a total
function, so within this core no exception occurs; the one exception the
source can raise with a total oracle — the `IndexError` at line 83 when
the previous block is shorter than `block_size`, caught by the `except` at
line 147 — happens before any oracle call of the block and is modelled
separately by `process_block_run_calls`, `process_block_run_events` and
`process_block_at_queued` below. -/
def process_block (padding_oracle : Bytes → Bool) (block_size : Nat)
    (previous_block target_block : Bytes) (block_idx : Nat) : BlockState :=
  let final := blockStateAfter padding_oracle block_size previous_block target_block
    block_idx block_size
  { final with events := final.events ++ [ProgressEvent.blockComplete block_idx] }

/-- Lines 23-26: a ciphertext whose length is not a multiple of 16 is
PKCS#7-padded (with hardcoded size 16) before the attack begins. -/
def preprocessCiphertext (ciphertext : Bytes) : Bytes :=
  if ciphertext.length % 16 ≠ 0 then pkcs7pad ciphertext 16 else ciphertext

/-- Lines 28-32: split into blocks and prepend the IV as block 0. -/
def attackBlocks (ciphertext iv : Bytes) (block_size : Nat) : List Bytes :=
  iv :: chunks block_size (preprocessCiphertext ciphertext)

/-- The per-block computation spawned for block index `idx ≥ 1`. -/
def process_block_at (padding_oracle : Bytes → Bool) (ciphertext iv : Bytes)
    (block_size idx : Nat) : BlockState :=
  let blocks := attackBlocks ciphertext iv block_size
  process_block padding_oracle block_size (blocks.getD (idx - 1) [])
    (blocks.getD idx []) idx

/-- The events of the worker for one block: when it crashes on the short
previous block, the `block_start` and the first `byte_start` callbacks have
already fired (lines 47-49 and 62-64) and nothing else follows. -/
def process_block_run_events (padding_oracle : Bytes → Bool) (block_size : Nat)
    (previous_block target_block : Bytes) (block_idx : Nat) : List ProgressEvent :=
  if 0 < block_size ∧ previous_block.length < block_size then
    [ProgressEvent.blockStart block_idx,
      ProgressEvent.byteStart block_idx (block_size - 1)]
  else (process_block padding_oracle block_size previous_block target_block block_idx).events

/-- The queue entry produced for one block (line 142 on completion,
line 148 on the caught exception): `none` exactly when the worker crashed
on a previous block shorter than `block_size`. -/
def process_block_at_queued (padding_oracle : Bytes → Bool) (ciphertext iv : Bytes)
    (block_size idx : Nat) : Option Bytes :=
  if 0 < block_size ∧
      ((attackBlocks ciphertext iv block_size).getD (idx - 1) []).length < block_size then
    none
  else some (process_block_at padding_oracle ciphertext iv block_size idx).plaintext_bytes

/-- Number of actual ciphertext blocks (excluding the IV). -/
def totalBlocks (ciphertext iv : Bytes) (block_size : Nat) : Nat :=
  (attackBlocks ciphertext iv block_size).length - 1

/-- The block indices `1, ..., total_blocks` in spawn order. -/
def canonicalOrder (ciphertext iv : Bytes) (block_size : Nat) : List Nat :=
  (List.range (totalBlocks ciphertext iv block_size)).map (· + 1)

/-- Lines 162-168: results arrive on the queue in thread-completion order;
`completion_order` models that order.  Each entry pairs the block index
with the queued plaintext, which is `none` for a crashed worker. -/
def collectResults (padding_oracle : Bytes → Bool) (ciphertext iv : Bytes)
    (block_size : Nat) (completion_order : List Nat) : List (Nat × Option Bytes) :=
  completion_order.map fun idx =>
    (idx, process_block_at_queued padding_oracle ciphertext iv block_size idx)

/-- Lines 178-187: sort the collected results by block index, keep the
non-`None` plaintexts, and return their concatenation — unless some block
produced `None`, in which case the `len(plaintext_blocks) != total_blocks`
check at line 182 makes the whole attack return `None`. -/
def aes_attack_run (padding_oracle : Bytes → Bool) (ciphertext iv : Bytes)
    (block_size : Nat) (completion_order : List Nat) : Option Bytes :=
  let results := collectResults padding_oracle ciphertext iv block_size completion_order
  let sorted := results.insertionSort fun a b => a.1 ≤ b.1
  let plaintext_blocks := (sorted.map Prod.snd).filterMap id
  if plaintext_blocks.length = totalBlocks ciphertext iv block_size then
    some plaintext_blocks.flatten
  else none

/-- `aes_attack` (lines 9-187), with the canonical completion order. -/
def aes_attack (ciphertext : Bytes) (padding_oracle : Bytes → Bool) (iv : Bytes)
    (block_size : Nat) : Option Bytes :=
  aes_attack_run padding_oracle ciphertext iv block_size
    (canonicalOrder ciphertext iv block_size)

/-- The global event stream of a run in which whole blocks execute in the
order given by `schedule` (one possible thread interleaving). -/
def aes_attack_events (padding_oracle : Bytes → Bool) (ciphertext iv : Bytes)
    (block_size : Nat) (schedule : List Nat) : List ProgressEvent :=
  (schedule.map fun idx =>
    process_block_run_events padding_oracle block_size
      ((attackBlocks ciphertext iv block_size).getD (idx - 1) [])
      ((attackBlocks ciphertext iv block_size).getD idx []) idx).flatten

/-- Lines 227-231 of `demonstrate_aes_attack`: strip the padding from the
recovered bytes, returning them unchanged when `unpad` raises. -/
def strip_or_raw (recovered : Bytes) (bs : Nat) : Bytes :=
  (pkcs7unpad recovered bs).getD recovered

/-! ### A concrete CBC cipher for round-trip instances

The oracle in `demonstrate_aes_attack` is `decrypt-then-unpad` over CBC
mode with a fixed key and IV.  For concrete evaluation the block cipher is
an arbitrary permutation of blocks; `toyE`/`toyD` below is such a
permutation (XOR every byte with `0x5A`, then reverse the block). -/

def xorBytes (a b : Bytes) : Bytes := List.zipWith (· ^^^ ·) a b

def cbcEncryptBlocks (E : Bytes → Bytes) : Bytes → List Bytes → List Bytes
  | _, [] => []
  | prev, p :: ps =>
    let c := E (xorBytes p prev)
    c :: cbcEncryptBlocks E c ps

def cbcEncrypt (E : Bytes → Bytes) (iv : Bytes) (bs : Nat) (plain : Bytes) : Bytes :=
  (cbcEncryptBlocks E iv (chunks bs plain)).flatten

def cbcDecryptBlocks (D : Bytes → Bytes) : Bytes → List Bytes → List Bytes
  | _, [] => []
  | prev, c :: cs => xorBytes (D c) prev :: cbcDecryptBlocks D c cs

def cbcDecrypt (D : Bytes → Bytes) (iv : Bytes) (bs : Nat) (ct : Bytes) : Bytes :=
  (cbcDecryptBlocks D iv (chunks bs ct)).flatten

/-- The padding oracle of `demonstrate_aes_attack` (lines 213-221):
decrypt under the fixed key and IV and report whether `unpad` succeeds;
any `ValueError` (including a length not a multiple of the cipher's block
size) yields `False`. -/
def demoOracle (D : Bytes → Bytes) (iv : Bytes) (bs : Nat) (test_data : Bytes) : Bool :=
  if bs = 0 ∨ test_data.length % bs ≠ 0 then false
  else (pkcs7unpad (cbcDecrypt D iv bs test_data) bs).isSome

def toyE (b : Bytes) : Bytes := (b.map (· ^^^ 0x5A)).reverse

def toyD (b : Bytes) : Bytes := b.reverse.map (· ^^^ 0x5A)

/-! ### Basic list helpers -/

theorem getD_set_self {l : Bytes} {i v : Nat} (h : i < l.length) :
    (l.set i v).getD i 0 = v := by
  simp [List.getD_eq_getElem?_getD, List.getElem?_set_self, h]

theorem getD_set_other {l : Bytes} {i j v : Nat} (h : i ≠ j) :
    (l.set i v).getD j 0 = l.getD j 0 := by
  simp [List.getD_eq_getElem?_getD, List.getElem?_set_ne, h]

theorem byteStep_length_inter (po : Bytes → Bool) (bs : Nat) (prev target : Bytes)
    (idx : Nat) (st : BlockState) (p : Nat) :
    (byteStep po bs prev target idx st p).intermediate_bytes.length =
      st.intermediate_bytes.length := by
  unfold byteStep
  dsimp only
  split <;> simp

theorem byteStep_length_plain (po : Bytes → Bool) (bs : Nat) (prev target : Bytes)
    (idx : Nat) (st : BlockState) (p : Nat) :
    (byteStep po bs prev target idx st p).plaintext_bytes.length =
      st.plaintext_bytes.length := by
  unfold byteStep
  dsimp only
  split <;> simp

theorem stepsFold_length_inter (po : Bytes → Bool) (bs : Nat) (prev target : Bytes)
    (idx : Nat) :
    ∀ (l : List Nat) (st : BlockState),
      (stepsFold po bs prev target idx st l).intermediate_bytes.length =
        st.intermediate_bytes.length
  | [], _ => rfl
  | p :: l, st => by
    rw [show stepsFold po bs prev target idx st (p :: l) =
        stepsFold po bs prev target idx (byteStep po bs prev target idx st p) l from rfl,
      stepsFold_length_inter po bs prev target idx l, byteStep_length_inter]

theorem stepsFold_length_plain (po : Bytes → Bool) (bs : Nat) (prev target : Bytes)
    (idx : Nat) :
    ∀ (l : List Nat) (st : BlockState),
      (stepsFold po bs prev target idx st l).plaintext_bytes.length =
        st.plaintext_bytes.length
  | [], _ => rfl
  | p :: l, st => by
    rw [show stepsFold po bs prev target idx st (p :: l) =
        stepsFold po bs prev target idx (byteStep po bs prev target idx st p) l from rfl,
      stepsFold_length_plain po bs prev target idx l, byteStep_length_plain]

theorem blockStateAfter_length_inter (po : Bytes → Bool) (bs : Nat)
    (prev target : Bytes) (idx n : Nat) :
    (blockStateAfter po bs prev target idx n).intermediate_bytes.length = bs := by
  unfold blockStateAfter
  rw [stepsFold_length_inter]
  simp [initBlockState]

theorem blockStateAfter_length_plain (po : Bytes → Bool) (bs : Nat)
    (prev target : Bytes) (idx n : Nat) :
    (blockStateAfter po bs prev target idx n).plaintext_bytes.length = bs := by
  unfold blockStateAfter
  rw [stepsFold_length_plain]
  simp [initBlockState]

theorem stepsFold_cons (po : Bytes → Bool) (bs : Nat) (prev target : Bytes)
    (idx : Nat) (st : BlockState) (p : Nat) (l : List Nat) :
    stepsFold po bs prev target idx st (p :: l) =
      stepsFold po bs prev target idx (byteStep po bs prev target idx st p) l := rfl

theorem stepsFold_append (po : Bytes → Bool) (bs : Nat) (prev target : Bytes)
    (idx : Nat) (st : BlockState) (l₁ l₂ : List Nat) :
    stepsFold po bs prev target idx st (l₁ ++ l₂) =
      stepsFold po bs prev target idx (stepsFold po bs prev target idx st l₁) l₂ := by
  simp [stepsFold, List.foldl_append]

/-- The test block used by the step for padding value `p`, given the
intermediate bytes recorded so far. -/
def stepTestBlock (prev inter : Bytes) (bs p : Nat) : Bytes :=
  buildTestBlock prev inter (bs - p) p bs

/-- The first-pass candidate list of the step for padding value `p`. -/
def stepCandidates (po : Bytes → Bool) (bs : Nat) (prev target inter : Bytes)
    (p : Nat) : List Nat :=
  firstPassCandidates po (stepTestBlock prev inter bs p) prev target (bs - p)

/-- The accepted candidate (if any) of the step for padding value `p`. -/
def stepSelect (po : Bytes → Bool) (bs : Nat) (prev target inter : Bytes)
    (p : Nat) : Option Nat :=
  selectCandidate po (stepTestBlock prev inter bs p) prev target (bs - p) p
    (stepCandidates po bs prev target inter p)

/-- The first-pass candidate list actually computed at padding value `p`
during the run of `process_block`, i.e. relative to the state reached after
the padding values `1, ..., p-1`. -/
def candidatesAt (po : Bytes → Bool) (bs : Nat) (prev target : Bytes)
    (idx p : Nat) : List Nat :=
  stepCandidates po bs prev target
    (blockStateAfter po bs prev target idx (p - 1)).intermediate_bytes p

/-- The candidate accepted (if any) at padding value `p` during the run of
`process_block`. -/
def candidateAt (po : Bytes → Bool) (bs : Nat) (prev target : Bytes)
    (idx p : Nat) : Option Nat :=
  stepSelect po bs prev target
    (blockStateAfter po bs prev target idx (p - 1)).intermediate_bytes p

theorem byteStep_inter_found (po : Bytes → Bool) (bs : Nat) (prev target : Bytes)
    (idx : Nat) (st : BlockState) (p t : Nat)
    (h : stepSelect po bs prev target st.intermediate_bytes p = some t) :
    (byteStep po bs prev target idx st p).intermediate_bytes =
      st.intermediate_bytes.set (bs - p) (t ^^^ p) := by
  simp only [stepSelect, stepCandidates, stepTestBlock] at h
  unfold byteStep
  dsimp only
  rw [h]

theorem byteStep_plain_found (po : Bytes → Bool) (bs : Nat) (prev target : Bytes)
    (idx : Nat) (st : BlockState) (p t : Nat)
    (h : stepSelect po bs prev target st.intermediate_bytes p = some t) :
    (byteStep po bs prev target idx st p).plaintext_bytes =
      st.plaintext_bytes.set (bs - p) ((t ^^^ p) ^^^ prev.getD (bs - p) 0) := by
  simp only [stepSelect, stepCandidates, stepTestBlock] at h
  unfold byteStep
  dsimp only
  rw [h]

theorem byteStep_getD_inter_ne (po : Bytes → Bool) (bs : Nat) (prev target : Bytes)
    (idx : Nat) (st : BlockState) (p pos : Nat) (hne : bs - p ≠ pos) :
    (byteStep po bs prev target idx st p).intermediate_bytes.getD pos 0 =
      st.intermediate_bytes.getD pos 0 := by
  unfold byteStep
  dsimp only
  split
  · exact getD_set_other hne
  · rfl

theorem byteStep_getD_plain_ne (po : Bytes → Bool) (bs : Nat) (prev target : Bytes)
    (idx : Nat) (st : BlockState) (p pos : Nat) (hne : bs - p ≠ pos) :
    (byteStep po bs prev target idx st p).plaintext_bytes.getD pos 0 =
      st.plaintext_bytes.getD pos 0 := by
  unfold byteStep
  dsimp only
  split
  · exact getD_set_other hne
  · rfl

theorem stepsFold_getD_inter_ne (po : Bytes → Bool) (bs : Nat) (prev target : Bytes)
    (idx pos : Nat) :
    ∀ (l : List Nat) (st : BlockState), (∀ q ∈ l, bs - q ≠ pos) →
      (stepsFold po bs prev target idx st l).intermediate_bytes.getD pos 0 =
        st.intermediate_bytes.getD pos 0
  | [], _, _ => rfl
  | p :: l, st, hl => by
    rw [stepsFold_cons,
      stepsFold_getD_inter_ne po bs prev target idx pos l _
        (fun q hq => hl q (by simp [hq])),
      byteStep_getD_inter_ne po bs prev target idx st p pos (hl p (by simp))]

theorem stepsFold_getD_plain_ne (po : Bytes → Bool) (bs : Nat) (prev target : Bytes)
    (idx pos : Nat) :
    ∀ (l : List Nat) (st : BlockState), (∀ q ∈ l, bs - q ≠ pos) →
      (stepsFold po bs prev target idx st l).plaintext_bytes.getD pos 0 =
        st.plaintext_bytes.getD pos 0
  | [], _, _ => rfl
  | p :: l, st, hl => by
    rw [stepsFold_cons,
      stepsFold_getD_plain_ne po bs prev target idx pos l _
        (fun q hq => hl q (by simp [hq])),
      byteStep_getD_plain_ne po bs prev target idx st p pos (hl p (by simp))]

/-! ### Oracle-call counting -/

theorem byteStep_calls_ne_one (po : Bytes → Bool) (bs : Nat) (prev target : Bytes)
    (idx : Nat) (st : BlockState) (p : Nat) (hp : p ≠ 1) :
    (byteStep po bs prev target idx st p).calls = st.calls + 256 := by
  unfold byteStep
  dsimp only
  split <;> simp [hp]

theorem byteStep_calls_upper (po : Bytes → Bool) (bs : Nat) (prev target : Bytes)
    (idx : Nat) (st : BlockState) (p : Nat) :
    (byteStep po bs prev target idx st p).calls ≤ st.calls + 512 := by
  unfold byteStep
  dsimp only
  have hf : (firstPassCandidates po
      (buildTestBlock prev st.intermediate_bytes (bs - p) p bs) prev target
      (bs - p)).length ≤ 256 := by
    unfold firstPassCandidates
    calc (List.filter _ (List.range 256)).length ≤ (List.range 256).length :=
          List.length_filter_le _ _
      _ = 256 := by simp
  split <;> (dsimp only; split <;> omega)

theorem stepsFold_calls_ne_one (po : Bytes → Bool) (bs : Nat) (prev target : Bytes)
    (idx : Nat) :
    ∀ (l : List Nat) (st : BlockState), (∀ q ∈ l, q ≠ 1) →
      (stepsFold po bs prev target idx st l).calls = st.calls + 256 * l.length
  | [], st, _ => by simp [stepsFold]
  | p :: l, st, hl => by
    rw [stepsFold_cons,
      stepsFold_calls_ne_one po bs prev target idx l _ (fun q hq => hl q (by simp [hq])),
      byteStep_calls_ne_one po bs prev target idx st p (hl p (by simp))]
    simp only [List.length_cons]
    ring

theorem padsList_succ (n : Nat) : padsList (n + 1) = padsList n ++ [n + 1] := by
  unfold padsList
  rw [List.range_succ, List.map_append]
  rfl

theorem padsList_length (n : Nat) : (padsList n).length = n := by
  simp [padsList]

theorem padsList_split (p bs : Nat) (h1 : 1 ≤ p) (h2 : p ≤ bs) :
    ∃ post, padsList bs = padsList (p - 1) ++ p :: post ∧
      ∀ q ∈ post, p < q ∧ q ≤ bs := by
  induction bs with
  | zero => omega
  | succ n ih =>
    rcases Nat.lt_or_ge n p with hlt | hge
    · have hp : p = n + 1 := by omega
      subst hp
      refine ⟨[], ?_, by simp⟩
      rw [padsList_succ]
      simp
    · obtain ⟨post, heq, hmem⟩ := ih (by omega)
      refine ⟨post ++ [n + 1], ?_, ?_⟩
      · rw [padsList_succ, heq]
        simp
      · intro q hq
        rcases List.mem_append.1 hq with h | h
        · exact ⟨(hmem q h).1, by have := (hmem q h).2; omega⟩
        · simp only [List.mem_singleton] at h
          omega

theorem process_block_calls (po : Bytes → Bool) (bs : Nat) (prev target : Bytes)
    (idx : Nat) :
    (process_block po bs prev target idx).calls =
      (blockStateAfter po bs prev target idx bs).calls := rfl

theorem process_block_calls_upper (po : Bytes → Bool) (bs : Nat)
    (prev target : Bytes) (idx : Nat) :
    (process_block po bs prev target idx).calls ≤ 256 * (bs + 1) := by
  rw [process_block_calls]
  cases bs with
  | zero =>
    show (stepsFold po 0 prev target idx _ (padsList 0)).calls ≤ 256
    simp [stepsFold, padsList, initBlockState]
  | succ n =>
    obtain ⟨post, heq, hmem⟩ := padsList_split 1 (n + 1) (le_refl 1) (by omega)
    have hlen : post.length = n := by
      have := congrArg List.length heq
      simp [padsList_length] at this
      omega
    show (stepsFold po (n + 1) prev target idx (initBlockState (n + 1) idx)
      (padsList (n + 1))).calls ≤ 256 * (n + 1 + 1)
    rw [heq]
    have h0 : padsList (1 - 1) = [] := rfl
    rw [h0, List.nil_append, stepsFold_cons]
    rw [stepsFold_calls_ne_one po (n + 1) prev target idx post _
      (fun q hq => by have := (hmem q hq).1; omega)]
    have h1 := byteStep_calls_upper po (n + 1) prev target idx
      (initBlockState (n + 1) idx) 1
    have h2 : (initBlockState (n + 1) idx).calls = 0 := rfl
    rw [h2] at h1
    rw [hlen]
    omega

/-! ### Events -/

theorem byteStep_events_mem (po : Bytes → Bool) (bs : Nat) (prev target : Bytes)
    (idx : Nat) (st : BlockState) (p : Nat) (e : ProgressEvent)
    (he : e ∈ (byteStep po bs prev target idx st p).events) :
    e ∈ st.events ∨ e.isEmittedKind = true := by
  unfold byteStep at he
  dsimp only at he
  rcases hsel : selectCandidate po
      (buildTestBlock prev st.intermediate_bytes (bs - p) p bs)
      prev target (bs - p) p
      (firstPassCandidates po (buildTestBlock prev st.intermediate_bytes (bs - p) p bs)
        prev target (bs - p)) with _ | t <;>
    rw [hsel] at he <;> dsimp only at he <;>
    simp only [List.mem_append, List.mem_cons, List.mem_map, List.mem_singleton] at he
  · rcases he with h | h | ⟨q, _, hq⟩
    · exact Or.inl h
    · right; rw [h]; rfl
    · right; rw [← hq]; rfl
  · rcases he with (h | h | ⟨q, _, hq⟩) | (h | h)
    · exact Or.inl h
    · right; rw [h]; rfl
    · right; rw [← hq]; rfl
    · right; rw [h]; rfl
    · exact absurd h (List.not_mem_nil e)

theorem stepsFold_events_mem (po : Bytes → Bool) (bs : Nat) (prev target : Bytes)
    (idx : Nat) (e : ProgressEvent) :
    ∀ (l : List Nat) (st : BlockState),
      e ∈ (stepsFold po bs prev target idx st l).events →
      e ∈ st.events ∨ e.isEmittedKind = true
  | [], _, he => Or.inl he
  | p :: l, st, he => by
    rw [stepsFold_cons] at he
    rcases stepsFold_events_mem po bs prev target idx e l _ he with h | h
    · exact byteStep_events_mem po bs prev target idx st p e h
    · exact Or.inr h

theorem process_block_events_mem (po : Bytes → Bool) (bs : Nat)
    (prev target : Bytes) (idx : Nat) (e : ProgressEvent)
    (he : e ∈ (process_block po bs prev target idx).events) :
    e.isEmittedKind = true := by
  have : e ∈ (blockStateAfter po bs prev target idx bs).events ++
      [ProgressEvent.blockComplete idx] := he
  rcases List.mem_append.1 this with h | h
  · rcases stepsFold_events_mem po bs prev target idx e (padsList bs)
      (initBlockState bs idx) h with h | h
    · simp only [initBlockState, List.mem_singleton] at h
      rw [h]; rfl
    · exact h
  · simp only [List.mem_singleton] at h
    rw [h]; rfl

theorem process_block_run_events_mem (po : Bytes → Bool) (bs : Nat)
    (prev target : Bytes) (idx : Nat) (e : ProgressEvent)
    (he : e ∈ process_block_run_events po bs prev target idx) :
    e.isEmittedKind = true := by
  unfold process_block_run_events at he
  split at he
  · rcases List.mem_cons.1 he with h | h
    · rw [h]; rfl
    · rcases List.mem_cons.1 h with h2 | h2
      · rw [h2]; rfl
      · exact absurd h2 (List.not_mem_nil e)
  · exact process_block_events_mem po bs prev target idx e he

theorem aes_attack_events_no_paddingError (po : Bytes → Bool) (ct iv : Bytes)
    (bs : Nat) (schedule : List Nat) :
    ProgressEvent.paddingError ∉ aes_attack_events po ct iv bs schedule := by
  intro hmem
  unfold aes_attack_events at hmem
  rw [List.mem_flatten] at hmem
  obtain ⟨l, hl, hel⟩ := hmem
  obtain ⟨i, _, hli⟩ := List.mem_map.1 hl
  rw [← hli] at hel
  have := process_block_run_events_mem po bs _ _ i ProgressEvent.paddingError hel
  simp [ProgressEvent.isEmittedKind] at this

/-! ### Ciphertext preprocessing and the block list -/

theorem collectResults_map_fst (po : Bytes → Bool) (ct iv : Bytes) (bs : Nat)
    (order : List Nat) :
    (collectResults po ct iv bs order).map Prod.fst = order := by
  unfold collectResults
  rw [List.map_map]
  exact List.map_id' order

theorem canonicalOrder_nodup (ct iv : Bytes) (bs : Nat) :
    (canonicalOrder ct iv bs).Nodup :=
  (List.nodup_range _).map (fun a b h => by omega)

theorem insertionSort_collect_eq (po : Bytes → Bool) (ct iv : Bytes) (bs : Nat)
    (order : List Nat) (h : order.Perm (canonicalOrder ct iv bs)) :
    List.insertionSort (fun a b : Nat × Option Bytes => a.1 ≤ b.1)
        (collectResults po ct iv bs order) =
      List.insertionSort (fun a b : Nat × Option Bytes => a.1 ≤ b.1)
        (collectResults po ct iv bs (canonicalOrder ct iv bs)) := by
  haveI hTot : IsTotal (Nat × Option Bytes) (fun a b => a.1 ≤ b.1) :=
    ⟨fun a b => Nat.le_total a.1 b.1⟩
  haveI hTrans : IsTrans (Nat × Option Bytes) (fun a b => a.1 ≤ b.1) :=
    ⟨fun a b c h1 h2 => le_trans h1 h2⟩
  haveI hAnti : IsAntisymm (Nat × Option Bytes) (fun a b => a.1 < b.1) :=
    ⟨fun a b h1 h2 => absurd (lt_trans h1 h2) (lt_irrefl _)⟩
  have hperm : (collectResults po ct iv bs order).Perm
      (collectResults po ct iv bs (canonicalOrder ct iv bs)) := h.map _
  have hp1 := List.perm_insertionSort (fun a b : Nat × Option Bytes => a.1 ≤ b.1)
    (collectResults po ct iv bs order)
  have hp2 := List.perm_insertionSort (fun a b : Nat × Option Bytes => a.1 ≤ b.1)
    (collectResults po ct iv bs (canonicalOrder ct iv bs))
  have hperm2 := (hp1.trans hperm).trans hp2.symm
  have hnodupo : order.Nodup := (h.nodup_iff).2 (canonicalOrder_nodup ct iv bs)
  have hkeys1 : ((List.insertionSort (fun a b : Nat × Option Bytes => a.1 ≤ b.1)
      (collectResults po ct iv bs order)).map Prod.fst).Nodup := by
    have hp := hp1.map Prod.fst
    rw [collectResults_map_fst] at hp
    exact hp.nodup_iff.2 hnodupo
  have hkeys2 : ((List.insertionSort (fun a b : Nat × Option Bytes => a.1 ≤ b.1)
      (collectResults po ct iv bs (canonicalOrder ct iv bs))).map Prod.fst).Nodup := by
    have hp := hp2.map Prod.fst
    rw [collectResults_map_fst] at hp
    exact hp.nodup_iff.2 (canonicalOrder_nodup ct iv bs)
  have hstrict1 : List.Sorted (fun a b : Nat × Option Bytes => a.1 < b.1)
      (List.insertionSort (fun a b : Nat × Option Bytes => a.1 ≤ b.1)
        (collectResults po ct iv bs order)) := by
    have hs := List.sorted_insertionSort (fun a b : Nat × Option Bytes => a.1 ≤ b.1)
      (collectResults po ct iv bs order)
    have hne := (List.pairwise_map).1 hkeys1
    exact (hs.and hne).imp (fun hab => lt_of_le_of_ne hab.1 hab.2)
  have hstrict2 : List.Sorted (fun a b : Nat × Option Bytes => a.1 < b.1)
      (List.insertionSort (fun a b : Nat × Option Bytes => a.1 ≤ b.1)
        (collectResults po ct iv bs (canonicalOrder ct iv bs))) := by
    have hs := List.sorted_insertionSort (fun a b : Nat × Option Bytes => a.1 ≤ b.1)
      (collectResults po ct iv bs (canonicalOrder ct iv bs))
    have hne := (List.pairwise_map).1 hkeys2
    exact (hs.and hne).imp (fun hab => lt_of_le_of_ne hab.1 hab.2)
  exact List.eq_of_perm_of_sorted hperm2 hstrict1 hstrict2

theorem aes_attack_run_of_perm (po : Bytes → Bool) (ct iv : Bytes) (bs : Nat)
    (order : List Nat) (h : order.Perm (canonicalOrder ct iv bs)) :
    aes_attack_run po ct iv bs order = aes_attack ct po iv bs := by
  unfold aes_attack aes_attack_run
  dsimp only
  rw [insertionSort_collect_eq po ct iv bs order h]

/-! ### Position bookkeeping inside one block -/

theorem process_block_inter_eq (po : Bytes → Bool) (bs : Nat) (prev target : Bytes)
    (idx : Nat) :
    (process_block po bs prev target idx).intermediate_bytes =
      (blockStateAfter po bs prev target idx bs).intermediate_bytes := rfl

theorem process_block_plain_eq (po : Bytes → Bool) (bs : Nat) (prev target : Bytes)
    (idx : Nat) :
    (process_block po bs prev target idx).plaintext_bytes =
      (blockStateAfter po bs prev target idx bs).plaintext_bytes := rfl

theorem blockStateAfter_full_getD_inter (po : Bytes → Bool) (bs : Nat)
    (prev target : Bytes) (idx p : Nat) (h1 : 1 ≤ p) (h2 : p ≤ bs) :
    (blockStateAfter po bs prev target idx bs).intermediate_bytes.getD (bs - p) 0 =
      (byteStep po bs prev target idx
        (blockStateAfter po bs prev target idx (p - 1)) p).intermediate_bytes.getD
        (bs - p) 0 := by
  obtain ⟨post, heq, hmem⟩ := padsList_split p bs h1 h2
  unfold blockStateAfter
  rw [heq, stepsFold_append, stepsFold_cons]
  exact stepsFold_getD_inter_ne po bs prev target idx (bs - p) post _
    (fun q hq => by have := hmem q hq; omega)

theorem blockStateAfter_full_getD_plain (po : Bytes → Bool) (bs : Nat)
    (prev target : Bytes) (idx p : Nat) (h1 : 1 ≤ p) (h2 : p ≤ bs) :
    (blockStateAfter po bs prev target idx bs).plaintext_bytes.getD (bs - p) 0 =
      (byteStep po bs prev target idx
        (blockStateAfter po bs prev target idx (p - 1)) p).plaintext_bytes.getD
        (bs - p) 0 := by
  obtain ⟨post, heq, hmem⟩ := padsList_split p bs h1 h2
  unfold blockStateAfter
  rw [heq, stepsFold_append, stepsFold_cons]
  exact stepsFold_getD_plain_ne po bs prev target idx (bs - p) post _
    (fun q hq => by have := hmem q hq; omega)

theorem aes_attack_events_all_emitted (po : Bytes → Bool) (ct iv : Bytes)
    (bs : Nat) (schedule : List Nat) (e : ProgressEvent)
    (he : e ∈ aes_attack_events po ct iv bs schedule) :
    e.isEmittedKind = true := by
  unfold aes_attack_events at he
  rw [List.mem_flatten] at he
  obtain ⟨l, hl, hel⟩ := he
  obtain ⟨i, _, hli⟩ := List.mem_map.1 hl
  rw [← hli] at hel
  exact process_block_run_events_mem po bs _ _ i e hel

theorem aes_attack_events_countP_non_emitted (po : Bytes → Bool) (ct iv : Bytes)
    (bs : Nat) (schedule : List Nat) :
    ((aes_attack_events po ct iv bs schedule).countP fun e => !e.isEmittedKind) = 0 := by
  rw [List.countP_eq_zero]
  intro e he
  simp [aes_attack_events_all_emitted po ct iv bs schedule e he]

/-! ### Claim theorems -/

/-- Claim C5 (confirmed): whenever the byte step for padding value `p`
accepts a candidate `t`, the block's final intermediate array holds
`t XOR p` at the attacked position and the final plaintext array holds
`(t XOR p) XOR previous_block[position]` there, exactly as lines 130-134
of `attack.py` record. -/
theorem c5_recovered_byte_formula (po : Bytes → Bool) (bs : Nat)
    (prev target : Bytes) (idx p t : Nat) (h1 : 1 ≤ p) (h2 : p ≤ bs)
    (ht : candidateAt po bs prev target idx p = some t) :
    (process_block po bs prev target idx).intermediate_bytes.getD (bs - p) 0 =
      t ^^^ p ∧
    (process_block po bs prev target idx).plaintext_bytes.getD (bs - p) 0 =
      (t ^^^ p) ^^^ prev.getD (bs - p) 0 := by
  have hpos : bs - p < bs := by omega
  constructor
  · rw [process_block_inter_eq,
      blockStateAfter_full_getD_inter po bs prev target idx p h1 h2,
      byteStep_inter_found po bs prev target idx _ p t ht]
    exact getD_set_self (by rw [blockStateAfter_length_inter]; exact hpos)
  · rw [process_block_plain_eq,
      blockStateAfter_full_getD_plain po bs prev target idx p h1 h2,
      byteStep_plain_found po bs prev target idx _ p t ht]
    exact getD_set_self (by rw [blockStateAfter_length_plain]; exact hpos)

/-- Witness for C5: with the always-accepting oracle, block size 2 and zero
blocks, the final-byte step accepts candidate 0, and the final arrays hold
the recorded values. -/
theorem c5_recovered_byte_formula_witness :
    (process_block (fun _ => true) 2 [0, 0] [0, 0] 1).intermediate_bytes.getD
      (2 - 1) 0 = 0 ^^^ 1 ∧
    (process_block (fun _ => true) 2 [0, 0] [0, 0] 1).plaintext_bytes.getD
      (2 - 1) 0 = (0 ^^^ 1) ^^^ List.getD [0, 0] (2 - 1) 0 :=
  c5_recovered_byte_formula (fun _ => true) 2 [0, 0] [0, 0] 1 1 0
    (by decide) (by decide) (by decide)

/-- Claim C7, amended (corrected): each block consumes at most
`256 * (block_size + 1)` oracle calls: 256 first-pass queries per byte
position, plus one extra verification query per collected candidate at the
final-byte step, of which there can be up to 256 (not at most one, as the
claimed bound `block_size * 257` assumes). -/
theorem c7_amended_call_bound (po : Bytes → Bool) (bs : Nat)
    (prev target : Bytes) (idx : Nat) :
    (process_block po bs prev target idx).calls ≤ 256 * (bs + 1) :=
  process_block_calls_upper po bs prev target idx

/-- Claim C9, amended (corrected): the recovered plaintext is independent
of the order in which the per-block threads complete (in particular it is
the same for one worker or many), because the collected results are sorted
by block index before concatenation; the globally interleaved event
sequence, however, depends on the schedule and is not guaranteed
identical across runs. -/
theorem c9_amended_result_schedule_invariant (po : Bytes → Bool)
    (ct iv : Bytes) (bs : Nat) (order : List Nat)
    (h : order.Perm (canonicalOrder ct iv bs)) :
    aes_attack_run po ct iv bs order = aes_attack ct po iv bs :=
  aes_attack_run_of_perm po ct iv bs order h

/-- Witness for the amended C9: completion order `[2, 1]` on a two-block
ciphertext yields the canonical result. -/
theorem c9_amended_result_schedule_invariant_witness :
    aes_attack_run (fun _ => false) (List.replicate 16 0) (List.replicate 8 0)
      8 [2, 1] =
    aes_attack (List.replicate 16 0) (fun _ => false) (List.replicate 8 0) 8 :=
  c9_amended_result_schedule_invariant (fun _ => false) (List.replicate 16 0)
    (List.replicate 8 0) 8 [2, 1] (by decide)

/-- Claim C8, amended (corrected): `aes_attack` itself returns the raw
concatenation of the recovered blocks without stripping; padding is only
stripped afterwards by `demonstrate_aes_attack` via `unpad`, and when the
declared pad length (the last recovered byte) is outside `[1, block_size]`
or the trailing bytes do not all equal it, the raw unstripped bytes are
returned unchanged rather than failing; no `PaddingError` event is ever
emitted (the event stream contains only the five tags the source
produces). -/
theorem c8_amended_strip_behavior (r : Bytes) (bs : Nat)
    (h : r.getLastD 0 < 1 ∨ bs < r.getLastD 0 ∨
      ¬((r.drop (r.length - r.getLastD 0)).all (fun b => b = r.getLastD 0) = true))
    (po : Bytes → Bool) (ct iv : Bytes) (schedule : List Nat) :
    strip_or_raw r bs = r ∧
    ProgressEvent.paddingError ∉ aes_attack_events po ct iv bs schedule := by
  constructor
  · unfold strip_or_raw pkcs7unpad
    dsimp only
    split
    · rfl
    · split
      · rfl
      · rename_i hcond
        have hall : ¬ ((r.drop (r.length - r.getLastD 0)).all
            (fun b => b = r.getLastD 0) = true) := by
          rcases h with h1 | h1 | h1
          · exact absurd (Or.inl h1) hcond
          · exact absurd (Or.inr h1) hcond
          · exact h1
        rw [if_neg hall]
        rfl
  · exact aes_attack_events_no_paddingError po ct iv bs schedule

/-- Witness for the amended C8: the all-zero recovery `[0, 0]` declares pad
length 0, so it is returned raw, and a concrete run emits no
`PaddingError`. -/
theorem c8_amended_strip_behavior_witness :
    strip_or_raw [0, 0] 2 = [0, 0] ∧
    ProgressEvent.paddingError ∉
      aes_attack_events (fun _ => false) [0, 0] [0, 0] 2 [1] :=
  c8_amended_strip_behavior [0, 0] 2 (by decide) (fun _ => false) [0, 0] [0, 0] [1]

/-- Claim C1 (code bug): with a correct CBC cipher (the toy permutation
`toyE`/`toyD`, block size 2, IV `[7, 11]`) and the exact decrypt-then-unpad
oracle of `demonstrate_aes_attack`, attacking the PKCS#7-padded CBC
encryption of the plaintext `[1]` does not return `[1]`.  The first
recovered block is `[6, 10] = plaintext XOR IV`: lines 131-133 of
`attack.py` label the true plaintext byte as `intermediate_byte` and then
XOR it once more with the previous ciphertext block, so the attack returns
the block cipher's raw decryption `D(C_j) = P_j XOR C_(j-1)` instead of
`P_j` (the tail blocks come from the source's padding of the 2-byte
ciphertext itself up to 16 bytes).  Stripping cannot repair it: the result
differs from the original plaintext and from its padded form. -/
theorem c1_roundtrip_fails_on_code :
    cbcDecrypt toyD [7, 11] 2 (cbcEncrypt toyE [7, 11] 2 (pkcs7pad [1] 2)) =
      pkcs7pad [1] 2 ∧
    aes_attack (cbcEncrypt toyE [7, 11] 2 (pkcs7pad [1] 2))
      (demoOracle toyD [7, 11] 2) [7, 11] 2 =
      some [6, 10, 84, 84, 84, 84, 84, 84, 84, 84, 84, 84, 84, 84, 84, 84] ∧
    [6, 10] = xorBytes (pkcs7pad [1] 2) [7, 11] ∧
    strip_or_raw [6, 10, 84, 84, 84, 84, 84, 84, 84, 84, 84, 84, 84, 84, 84, 84] 2 ≠
      [1] ∧
    ([6, 10, 84, 84, 84, 84, 84, 84, 84, 84, 84, 84, 84, 84, 84, 84] : Bytes) ≠
      pkcs7pad [1] 2 :=
  ⟨by decide, by decide, by decide, by decide, by decide⟩

/-- Claim C3 (code bug): with the always-rejecting oracle and block size 2,
the first attempted position (padding value 1) exhausts all 256 candidates,
yet the block is not halted: the run issues 512 oracle queries (256 more
for the next position), emits a final `complete` event instead of marking
the block failed, and reports the all-zero plaintext `[0, 0]`. -/
theorem c3_no_halt_after_exhaustion :
    candidatesAt (fun _ => false) 2 [0, 0] [0, 0] 1 1 = [] ∧
    (process_block (fun _ => false) 2 [0, 0] [0, 0] 1).calls = 512 ∧
    (process_block (fun _ => false) 2 [0, 0] [0, 0] 1).events.getLast? =
      some (ProgressEvent.blockComplete 1) ∧
    (process_block (fun _ => false) 2 [0, 0] [0, 0] 1).plaintext_bytes = [0, 0] :=
  ⟨by decide, by decide, by decide, by decide⟩

/-- Claim C4 (code bug): with the always-accepting oracle, every candidate
at the final-byte step survives the corruption re-query (the corrupted
block is still accepted, so `verifyCandidate` is false for all of them),
yet the step still returns candidate 0 through the
`candidate_values[0]` fallback of lines 123-125 — a candidate whose
acceptance survived corruption is returned as the recovered byte. -/
theorem c4_unverified_candidate_returned :
    candidateAt (fun _ => true) 2 [0, 0] [0, 0] 1 1 = some 0 ∧
    verifyCandidate (fun _ => true)
      (stepTestBlock [0, 0]
        (blockStateAfter (fun _ => true) 2 [0, 0] [0, 0] 1 0).intermediate_bytes 2 1)
      [0, 0] [0, 0] (2 - 1) 0 = false :=
  ⟨by decide, by decide⟩

/-- Claim C6 (code bug): against the always-rejecting oracle the attack
does not return `None` and emits no failure-kind event at all: the single
block of a 16-byte ciphertext completes as all zeros, the overall result is
`some` of 16 zero bytes, and the event stream contains zero events outside
the five tags the source emits (in particular, zero `Exhausted` events
rather than exactly one). -/
theorem c6_always_false_oracle_not_none :
    aes_attack (List.replicate 16 0) (fun _ => false) (List.replicate 16 0) 16 =
      some (List.replicate 16 0) ∧
    ((aes_attack_events (fun _ => false) (List.replicate 16 0)
      (List.replicate 16 0) 16 [1]).countP fun e => !e.isEmittedKind) = 0 :=
  ⟨by decide, aes_attack_events_countP_non_emitted (fun _ => false)
    (List.replicate 16 0) (List.replicate 16 0) 16 [1]⟩

/-- Claim C7 (counterexample): with the always-accepting oracle and block
size 2, one block costs 768 oracle calls — 256 for each of the two byte
positions plus 256 verification calls (one per collected candidate) at the
final-byte step — exceeding the claimed bound `block_size * 257 = 514`. -/
theorem c7_counterexample_bound_exceeded :
    (process_block_at (fun _ => true) (List.replicate 16 0) [0, 0] 2 1).calls = 768 ∧
    ¬((process_block_at (fun _ => true) (List.replicate 16 0) [0, 0] 2 1).calls ≤
      2 * 257) :=
  ⟨by decide, by decide⟩

/-- Claim C8 (counterexample): under an oracle that accepts exactly the
inputs whose second byte is zero, the attack recovers `[0, 1]` for each of
the 8 blocks; the result ends in a valid pad byte 1, yet `aes_attack`
returns the unstripped 16-byte string (stripping would give 15 bytes), and
a run emits no `PaddingError` event. -/
theorem c8_counterexample_no_strip_no_event :
    aes_attack (List.replicate 16 0) (fun td => td.getD 1 0 == 0) [0, 0] 2 =
      some [0, 1, 0, 1, 0, 1, 0, 1, 0, 1, 0, 1, 0, 1, 0, 1] ∧
    pkcs7unpad [0, 1, 0, 1, 0, 1, 0, 1, 0, 1, 0, 1, 0, 1, 0, 1] 2 =
      some [0, 1, 0, 1, 0, 1, 0, 1, 0, 1, 0, 1, 0, 1, 0] ∧
    ([0, 1, 0, 1, 0, 1, 0, 1, 0, 1, 0, 1, 0, 1, 0, 1] : Bytes) ≠
      [0, 1, 0, 1, 0, 1, 0, 1, 0, 1, 0, 1, 0, 1, 0] ∧
    (aes_attack_events (fun td => td.getD 1 0 == 0) (List.replicate 16 0) [0, 0] 2
      [1, 2, 3, 4, 5, 6, 7, 8]).count ProgressEvent.paddingError = 0 :=
  ⟨by decide, by decide, by decide,
    List.count_eq_zero.2 (aes_attack_events_no_paddingError
      (fun td => td.getD 1 0 == 0) (List.replicate 16 0) [0, 0] 2
      [1, 2, 3, 4, 5, 6, 7, 8])⟩

/-- Claim C9 (counterexample): with the same deterministic (always-false)
oracle and a two-block ciphertext, the completion orders `[1, 2]` and
`[2, 1]` produce the same recovered plaintext but different global event
sequences, so identical event sequences across runs are not guaranteed. -/
theorem c9_counterexample_event_order :
    aes_attack_run (fun _ => false) (List.replicate 16 0) (List.replicate 8 0)
      8 [1, 2] =
      aes_attack_run (fun _ => false) (List.replicate 16 0) (List.replicate 8 0)
        8 [2, 1] ∧
    aes_attack_events (fun _ => false) (List.replicate 16 0) (List.replicate 8 0)
      8 [1, 2] ≠
      aes_attack_events (fun _ => false) (List.replicate 16 0) (List.replicate 8 0)
        8 [2, 1] :=
  ⟨by decide, by decide⟩
